import Mathlib

/-!
Verification development for the ranking subsystem of the repository:
the facade in src/rank/rank_base.go over an ordered index.

The facade code (Ranker, RankBase and their methods) is embedded directly
from src/rank/rank_base.go.  The ordered index it delegates to (the
skiplist package) is an external dependency whose source is not part of
the repository, so its operations (Add, DeleteByKey, GetRankByKey,
GetReverseRankByKey, GetRange, GetElementsCount) are modelled from the
spec, as a list kept in sorted order; each such definition says so in its
doc comment.

Modelling choices:
  - the generic key type K is instantiated at Nat and the SortableInt
    value type at Int; the int64 timestamp is Int.  Only comparisons are
    performed on these in the embedded code, so overflow plays no role;
  - the Go map for the auxiliary dictionary is an association list with
    lookup-first semantics, mutated through dictSet and dictDel;
  - a ranker's back-reference rankPtr (a Go pointer to the owning
    RankBase, nil when unset) is modelled as a Bool flag recording whether
    the pointer is set; the entity-level rank query takes the pointed-to
    facade as an explicit argument, which is adequate because the program
    associates each ranker with at most one facade;
  - functions returning a Go error are modelled with Except Err or
    Option Err; mutation of receiver and argument is explicit state
    passing, so a mutating method returns the error together with the
    new facade state and, where the source mutates it, the new ranker.
-/

/-- Error kinds of the two layers, named as in the spec's error design:
DuplicateKey and NotFound from the index, OutOfRange from rank arguments,
DetachedRanker for a self-rank query with an unset back-reference, and
Injected for the spec's simulated failure of the reinsert step. -/
inductive Err where
  | DuplicateKey
  | NotFound
  | OutOfRange
  | DetachedRanker
  | Injected
deriving DecidableEq, Repr

deriving instance DecidableEq for Except

/-- The Ranker entity of src/rank/rank_base.go: identity, numeric value,
last-update timestamp and the back-reference flag (true iff the Go rankPtr
pointer is non-nil). -/
structure Ranker where
  rankerId : Nat
  value : Int
  updateTime : Int
  rankPtr : Bool
deriving DecidableEq, Repr

/-- Embeds Ranker.Less of src/rank/rank_base.go lines 33-45: a higher
value sorts first, and among equal values the earlier update time sorts
first.  The type-assertion panic of the source cannot arise here since
the model's elements are Rankers by type. -/
def Ranker.Less (r i : Ranker) : Bool :=
  if r.value > i.value then true
  else if r.value < i.value then false
  else decide (r.updateTime < i.updateTime)

/-- Keys of the elements of an index list, in index order. -/
def keys (l : List Ranker) : List Nat :=
  l.map (fun r => r.rankerId)

/-- Modelled from the spec: the ordered index keeps its nodes sorted by
the comparison predicate; insertion walks past every element that sorts
before the new one and splices the new element in front of the rest. -/
def insertElem (x : Ranker) : List Ranker → List Ranker
  | [] => [x]
  | h :: t => if h.Less x then h :: insertElem x t else x :: h :: t

/-- Modelled from the spec: deletion unsplices the node carrying the
given key, leaving every other node in place. -/
def deleteKey (k : Nat) : List Ranker → List Ranker
  | [] => []
  | h :: t => if h.rankerId = k then t else h :: deleteKey k t

/-- One-based position of the node carrying the given key, none when
absent: the rank a top-down span-summing search of the spec's index
computes. -/
def rankAux (k : Nat) : List Ranker → Option Nat
  | [] => none
  | h :: t => if h.rankerId = k then some 1 else (rankAux k t).map (fun n => n + 1)

/-- The ordered index state: its sorted node list. -/
abbrev SkipList := List Ranker

/-- Modelled from the spec: insert fails with DuplicateKey if an element
with the same key already exists, and otherwise splices the element into
sort order. -/
def SkipList.Add (l : SkipList) (x : Ranker) : Except Err SkipList :=
  if x.rankerId ∈ keys l then .error .DuplicateKey
  else .ok (insertElem x l)

/-- Modelled from the spec: delete fails with NotFound if the key is
absent and otherwise unsplices the node with that key. -/
def SkipList.DeleteByKey (l : SkipList) (k : Nat) : Except Err SkipList :=
  if k ∈ keys l then .ok (deleteKey k l)
  else .error .NotFound

/-- Modelled from the spec: rank lookup fails with NotFound if the key is
absent and otherwise returns the 1-based ascending rank. -/
def SkipList.GetRankByKey (l : SkipList) (k : Nat) : Except Err Int :=
  match rankAux k l with
  | some n => .ok (n : Int)
  | none => .error .NotFound

/-- Modelled from the spec: the reverse rank is the 1-based position
counting from the lowest-sorted element, i.e. the ascending rank within
the reversed node sequence; NotFound if the key is absent. -/
def SkipList.GetReverseRankByKey (l : SkipList) (k : Nat) : Except Err Int :=
  SkipList.GetRankByKey l.reverse k

/-- Modelled from the spec: the element count of the index, as the int32
the source's GetElementsCount returns. -/
def SkipList.GetElementsCount (l : SkipList) : Int :=
  l.length

/-- Modelled from the spec: the range query fails with OutOfRange when
startAt is below 1 or above endAt, clamps endAt to the element count, and
returns the elements at ranks startAt through the clamped end in
ascending rank order, the empty sequence when startAt exceeds the
count. -/
def SkipList.GetRange (l : SkipList) (startAt endAt : Int) : Except Err (List Ranker) :=
  if startAt < 1 ∨ startAt > endAt then .error .OutOfRange
  else .ok ((l.take (min endAt (l.length : Int)).toNat).drop (startAt - 1).toNat)

/-- Association-list model of the Go map delete: removes any binding of
the key. -/
def dictDel (d : List (Nat × Int)) (k : Nat) : List (Nat × Int) :=
  match d with
  | [] => []
  | p :: t => if p.1 = k then dictDel t k else p :: dictDel t k

/-- Association-list model of the Go map store: binds the key to the
value, superseding any previous binding. -/
def dictSet (d : List (Nat × Int)) (k : Nat) (v : Int) : List (Nat × Int) :=
  (k, v) :: dictDel d k

/-- Association-list model of the Go map read. -/
def dictLookup (d : List (Nat × Int)) (k : Nat) : Option Int :=
  match d with
  | [] => none
  | p :: t => if p.1 = k then some p.2 else dictLookup t k

/-- The ranking facade of src/rank/rank_base.go lines 55-58: the ordered
index and the auxiliary key-to-value map. -/
structure RankBase where
  rankMain : SkipList
  dict : List (Nat × Int)
deriving DecidableEq, Repr

/-- Embeds NewRank of src/rank/rank_base.go lines 60-65: empty index,
empty map. -/
def NewRank : RankBase :=
  { rankMain := [], dict := [] }

/-- Embeds AddRanker of src/rank/rank_base.go lines 67-75: the argument's
back-reference is set first, then the index insert is attempted; the
deferred map store runs only when the insert returned no error.  Returns
the error, the facade state after the call, and the argument as the call
leaves it. -/
def RankBase.AddRanker (rb : RankBase) (e : Ranker) : Option Err × RankBase × Ranker :=
  let eSet : Ranker := { e with rankPtr := true }
  match SkipList.Add rb.rankMain eSet with
  | .ok l => (none, { rankMain := l, dict := dictSet rb.dict e.rankerId e.value }, eSet)
  | .error er => (some er, rb, eSet)

/-- Embeds RemoveRanker of src/rank/rank_base.go lines 77-84: index
delete by the argument's key, and the deferred map delete runs only when
the index delete returned no error.  The argument itself is not mutated
by the source, so it is returned unchanged. -/
def RankBase.RemoveRanker (rb : RankBase) (e : Ranker) : Option Err × RankBase × Ranker :=
  match SkipList.DeleteByKey rb.rankMain e.rankerId with
  | .ok l => (none, { rankMain := l, dict := dictDel rb.dict e.rankerId }, e)
  | .error er => (some er, rb, e)

/-- Embeds RemoveRankerByKey of src/rank/rank_base.go lines 86-93 exactly
as written: the deferred map delete is guarded by the error being
non-nil, so on a successful index delete the map keeps its binding and on
a failed one the map binding is deleted. -/
def RankBase.RemoveRankerByKey (rb : RankBase) (k : Nat) : Option Err × RankBase :=
  match SkipList.DeleteByKey rb.rankMain k with
  | .ok l => (none, { rankMain := l, dict := rb.dict })
  | .error er => (some er, { rankMain := rb.rankMain, dict := dictDel rb.dict k })

/-- Embeds UpdateRankerData of src/rank/rank_base.go lines 95-107: index
delete of the new data's key, returning its error unchanged when it
fails; then the back-reference of the new data is set and the index
insert attempted, with the deferred map store running only when the
insert returned no error.  The source's deferred store names its element
through a leftover identifier from AddRanker; it is embedded with the
evident intent, the new data's key and value.  The addFails flag models
the spec's simulated failure of the reinsert step: with addFails false
this is the direct embedding of the source, and with addFails true the
insert step is replaced by a failure with Err.Injected, state as the
source leaves it at that point. -/
def RankBase.UpdateRankerData (rb : RankBase) (e : Ranker) (addFails : Bool) :
    Option Err × RankBase × Ranker :=
  match SkipList.DeleteByKey rb.rankMain e.rankerId with
  | .error er => (some er, rb, e)
  | .ok l1 =>
    let eSet : Ranker := { e with rankPtr := true }
    if addFails then (some .Injected, { rankMain := l1, dict := rb.dict }, eSet)
    else
      match SkipList.Add l1 eSet with
      | .ok l2 => (none, { rankMain := l2, dict := dictSet rb.dict e.rankerId e.value }, eSet)
      | .error er => (some er, { rankMain := l1, dict := rb.dict }, eSet)

/-- Embeds RankBase.GetRank of src/rank/rank_base.go lines 109-111:
delegates to the index's rank lookup. -/
def RankBase.GetRank (rb : RankBase) (rankerKey : Nat) : Except Err Int :=
  SkipList.GetRankByKey rb.rankMain rankerKey

/-- Embeds GetReverseRank of src/rank/rank_base.go lines 113-115:
delegates to the index's reverse rank lookup. -/
def RankBase.GetReverseRank (rb : RankBase) (rankerKey : Nat) : Except Err Int :=
  SkipList.GetReverseRankByKey rb.rankMain rankerKey

/-- Embeds RankBase.Range of src/rank/rank_base.go lines 117-130:
delegates to the index's range query; the per-element interface cast of
the source is the identity here, and its panic branch cannot arise since
the model's elements are Rankers by type. -/
def RankBase.Range (rb : RankBase) (startAt endAt : Int) : Except Err (List Ranker) :=
  SkipList.GetRange rb.rankMain startAt endAt

/-- Element count of the facade's index, the quantity the spec calls
count(). -/
def RankBase.count (rb : RankBase) : Int :=
  SkipList.GetElementsCount rb.rankMain

/-- Embeds Ranker.GetRank of src/rank/rank_base.go lines 48-53: an unset
back-reference yields the detached-ranker error, and otherwise the query
delegates to the pointed-to facade, passed explicitly here. -/
def Ranker.GetRank (r : Ranker) (rb : RankBase) : Except Err Int :=
  if r.rankPtr then RankBase.GetRank rb r.rankerId
  else .error .DetachedRanker

/-- Embeds GetAllRankers of src/rank/rank_base.go lines 132-134: the full
range query from rank 1 to the element count. -/
def RankBase.GetAllRankers (rb : RankBase) : Except Err (List Ranker) :=
  RankBase.Range rb 1 (SkipList.GetElementsCount rb.rankMain)

/-- Per-key agreement of the facade's two containers: a key is in the
index exactly when the auxiliary map binds it. -/
def Consistent (rb : RankBase) : Prop :=
  ∀ a : Nat, a ∈ keys rb.rankMain ↔ (dictLookup rb.dict a).isSome = true

/-- The order the spec requires of adjacent range-query results:
non-increasing value, and non-decreasing update time among equal
values. -/
def ordOK (a b : Ranker) : Prop :=
  b.value ≤ a.value ∧ (a.value = b.value → a.updateTime ≤ b.updateTime)

/-- Facade reached by adding a sequence of rankers to a fresh facade,
keeping each call's facade state. -/
def buildRank (es : List Ranker) : RankBase :=
  es.foldl (fun rb e => (RankBase.AddRanker rb e).2.1) NewRank

/-- A concrete ranker used by the concrete instances below. -/
def r1 : Ranker :=
  { rankerId := 1, value := 5, updateTime := 10, rankPtr := false }

/-- Facade holding exactly r1, reached through AddRanker on a fresh
facade. -/
def rbOne : RankBase :=
  (RankBase.AddRanker NewRank r1).2.1

/-- The ranker r1 as AddRanker hands it back, back-reference set. -/
def addedRanker : Ranker :=
  (RankBase.AddRanker NewRank r1).2.2

/-- Facade holding r1 and a second, higher-valued ranker. -/
def rbTwo : RankBase :=
  (RankBase.AddRanker rbOne { rankerId := 2, value := 9, updateTime := 11, rankPtr := false }).2.1


/-- Characterisation of the source's comparison: Less places a first
exactly when a has the higher value, or equal value and the earlier
update time. -/
theorem less_iff (a b : Ranker) :
    Ranker.Less a b = true ↔
      (b.value < a.value ∨ (a.value = b.value ∧ a.updateTime < b.updateTime)) := by
  unfold Ranker.Less
  rcases lt_trichotomy a.value b.value with hv | hv | hv
  · rw [if_neg (by omega), if_pos hv]
    simp only [Bool.false_eq_true, false_iff]
    omega
  · rw [if_neg (by omega), if_neg (by omega)]
    simp only [decide_eq_true_eq]
    omega
  · rw [if_pos hv]
    simp only [true_iff]
    omega

/-- A pair that Less places first satisfies the spec's adjacency order. -/
theorem less_imp_ordOK {a b : Ranker} (h : Ranker.Less a b = true) : ordOK a b := by
  rcases (less_iff a b).mp h with hv | ⟨hv, ht⟩
  · exact ⟨le_of_lt hv, fun heq => absurd heq (by omega)⟩
  · exact ⟨le_of_eq hv.symm, fun _ => le_of_lt ht⟩

/-- A pair that Less does not place first satisfies the spec's adjacency
order the other way around. -/
theorem not_less_imp_ordOK {a b : Ranker} (h : Ranker.Less a b = false) : ordOK b a := by
  have hn : ¬(b.value < a.value ∨ (a.value = b.value ∧ a.updateTime < b.updateTime)) := by
    intro hc
    rw [(less_iff a b).mpr hc] at h
    cases h
  push_neg at hn
  obtain ⟨h1, h2⟩ := hn
  refine ⟨by omega, fun heq => ?_⟩
  have := h2 heq.symm
  omega

/-- The adjacency order is transitive. -/
theorem ordOK_trans {a b c : Ranker} (h1 : ordOK a b) (h2 : ordOK b c) : ordOK a c := by
  obtain ⟨v1, t1⟩ := h1
  obtain ⟨v2, t2⟩ := h2
  refine ⟨le_trans v2 v1, fun h => ?_⟩
  have hb : b.value = a.value := le_antisymm v1 (by omega)
  exact le_trans (t1 hb.symm) (t2 (by omega))

/-- Membership in the index after an insertion. -/
theorem mem_insertElem {x y : Ranker} : ∀ {l : List Ranker},
    y ∈ insertElem x l ↔ y = x ∨ y ∈ l := by
  intro l
  induction l with
  | nil => simp [insertElem]
  | cons h t ih =>
    cases hc : h.Less x with
    | true =>
      simp only [insertElem, hc, if_true, List.mem_cons, ih]
      tauto
    | false =>
      simp only [insertElem, hc, Bool.false_eq_true, if_false, List.mem_cons]

/-- Insertion keeps the index pairwise ordered. -/
theorem pairwise_insertElem (x : Ranker) :
    ∀ (l : List Ranker), List.Pairwise ordOK l → List.Pairwise ordOK (insertElem x l) := by
  intro l
  induction l with
  | nil => intro _; simp [insertElem]
  | cons h t ih =>
    intro hp
    rw [List.pairwise_cons] at hp
    obtain ⟨hh, ht⟩ := hp
    cases hc : h.Less x with
    | true =>
      simp only [insertElem, hc, if_true]
      rw [List.pairwise_cons]
      refine ⟨fun y hy => ?_, ih ht⟩
      rcases mem_insertElem.mp hy with rfl | hyt
      · exact less_imp_ordOK hc
      · exact hh y hyt
    | false =>
      simp only [insertElem, hc, Bool.false_eq_true, if_false]
      rw [List.pairwise_cons]
      refine ⟨fun y hy => ?_, List.pairwise_cons.mpr ⟨hh, ht⟩⟩
      have hxh : ordOK x h := not_less_imp_ordOK hc
      rcases List.mem_cons.mp hy with rfl | hyt
      · exact hxh
      · exact ordOK_trans hxh (hh y hyt)

/-- AddRanker keeps the facade's index pairwise ordered. -/
theorem addRanker_pairwise (rb : RankBase) (e : Ranker)
    (hp : List.Pairwise ordOK rb.rankMain) :
    List.Pairwise ordOK ((RankBase.AddRanker rb e).2.1).rankMain := by
  unfold RankBase.AddRanker SkipList.Add
  by_cases hm : e.rankerId ∈ keys rb.rankMain
  · simp only [hm, if_true]
    exact hp
  · simp only [hm, if_false]
    exact pairwise_insertElem _ _ hp

/-- Any facade built by a sequence of AddRanker calls from a pairwise
ordered start keeps a pairwise ordered index. -/
theorem buildRank_pairwise_aux :
    ∀ (es : List Ranker) (rb : RankBase), List.Pairwise ordOK rb.rankMain →
      List.Pairwise ordOK
        ((es.foldl (fun rb e => (RankBase.AddRanker rb e).2.1) rb)).rankMain := by
  intro es
  induction es with
  | nil => intro rb h; exact h
  | cons e t ih =>
    intro rb h
    exact ih _ (addRanker_pairwise rb e h)

/-- On a nonempty facade, the full range query returns the index list
itself. -/
theorem range_full (rb : RankBase) :
    rb.rankMain = [] ∨
      RankBase.Range rb 1 (RankBase.count rb) = Except.ok rb.rankMain := by
  rcases eq_or_ne rb.rankMain [] with hl | hl
  · exact Or.inl hl
  · right
    have hlen : 1 ≤ rb.rankMain.length := List.length_pos.mpr hl
    unfold RankBase.Range SkipList.GetRange RankBase.count SkipList.GetElementsCount
    rw [if_neg, min_self]
    · simp
    · rintro (hcon | hcon)
      · omega
      · omega

/-- Claim C3: the comparison used by the index places the higher value
first and, among equal values, the earlier last-update timestamp first;
consequently, for every sequence of rankers added to a fresh facade, the
index is pairwise in non-increasing value order with non-decreasing
update-timestamp order among equal values, and the full range query from
rank 1 to the count returns exactly that index sequence (on a nonempty
facade). -/
theorem less_ordering_and_range_sorted :
    (∀ a b : Ranker, Ranker.Less a b = true ↔
        (b.value < a.value ∨ (a.value = b.value ∧ a.updateTime < b.updateTime))) ∧
    (∀ es : List Ranker, List.Pairwise ordOK (buildRank es).rankMain) ∧
    (∀ es : List Ranker, (buildRank es).rankMain = [] ∨
        RankBase.Range (buildRank es) 1 (RankBase.count (buildRank es)) =
          Except.ok (buildRank es).rankMain) := by
  refine ⟨less_iff, fun es => ?_, fun es => range_full _⟩
  exact buildRank_pairwise_aux es NewRank (by simp [NewRank])

/-- Claim C7 counterexample: two rankers with distinct keys but equal
value and equal update time compare equal under Less — neither sorts
before the other — refuting the claim that exactly one of the two
comparisons holds for every pair of distinct rankers. -/
theorem less_equal_pair_incomparable :
    Ranker.Less { rankerId := 1, value := 5, updateTime := 10, rankPtr := false }
        { rankerId := 2, value := 5, updateTime := 10, rankPtr := false } = false ∧
    Ranker.Less { rankerId := 2, value := 5, updateTime := 10, rankPtr := false }
        { rankerId := 1, value := 5, updateTime := 10, rankPtr := false } = false ∧
    ({ rankerId := 1, value := 5, updateTime := 10, rankPtr := false } : Ranker) ≠
        { rankerId := 2, value := 5, updateTime := 10, rankPtr := false } := by
  decide

/-- Claim C7 as amended: for two rankers whose sort keys differ — the
values differ or the update times differ — exactly one of the two Less
comparisons holds; distinct keys alone do not ensure this, since rankers
with equal value and equal update time compare equal. -/
theorem less_trichotomy_on_distinct_scores (a b : Ranker)
    (h : a.value ≠ b.value ∨ a.updateTime ≠ b.updateTime) :
    (Ranker.Less a b = true ∧ Ranker.Less b a = false) ∨
    (Ranker.Less a b = false ∧ Ranker.Less b a = true) := by
  have hab := less_iff a b
  have hba := less_iff b a
  by_cases hx : Ranker.Less a b = true
  · left
    refine ⟨hx, ?_⟩
    have h1 := hab.mp hx
    cases hy : Ranker.Less b a with
    | false => rfl
    | true =>
      have h2 := hba.mp hy
      exact absurd rfl (by omega : ¬(0 : Int) = 0)
  · right
    have hx' : Ranker.Less a b = false := by
      cases hz : Ranker.Less a b with
      | false => rfl
      | true => exact absurd hz hx
    refine ⟨hx', ?_⟩
    have h1 : ¬(b.value < a.value ∨ (a.value = b.value ∧ a.updateTime < b.updateTime)) := by
      intro hc
      exact hx (hab.mpr hc)
    rw [hba]
    omega

/-- Claim C7 witness: the amended trichotomy at a concrete pair with
distinct values. -/
theorem less_trichotomy_witness :
    (Ranker.Less { rankerId := 1, value := 6, updateTime := 10, rankPtr := false }
        { rankerId := 2, value := 5, updateTime := 10, rankPtr := false } = true ∧
     Ranker.Less { rankerId := 2, value := 5, updateTime := 10, rankPtr := false }
        { rankerId := 1, value := 6, updateTime := 10, rankPtr := false } = false) ∨
    (Ranker.Less { rankerId := 1, value := 6, updateTime := 10, rankPtr := false }
        { rankerId := 2, value := 5, updateTime := 10, rankPtr := false } = false ∧
     Ranker.Less { rankerId := 2, value := 5, updateTime := 10, rankPtr := false }
        { rankerId := 1, value := 6, updateTime := 10, rankPtr := false } = true) :=
  less_trichotomy_on_distinct_scores _ _ (by decide)

/-- Claim C2: evaluation of RemoveRankerByKey at a facade holding exactly
key 1 with value 5.  The call reports success and removes the key from
the index, but the auxiliary map still binds the key afterwards, because
the source guards its deferred map delete with the error being non-nil:
the opposite of the sibling RemoveRanker and of the documented
behaviour. -/
theorem removeRankerByKey_leaves_dict_entry :
    (RankBase.RemoveRankerByKey rbOne 1).1 = none ∧
    keys (RankBase.RemoveRankerByKey rbOne 1).2.rankMain = [] ∧
    dictLookup (RankBase.RemoveRankerByKey rbOne 1).2.dict 1 = some 5 := by
  decide

/-- Claim C4: AddRanker on a key already present fails with DuplicateKey
and leaves the facade, index and auxiliary map both, unchanged; on an
absent key it succeeds, stores the key-value pair in the auxiliary map
and hands back the ranker with its back-reference set. -/
theorem addRanker_duplicate_and_success (rb : RankBase) (e : Ranker) :
    (e.rankerId ∈ keys rb.rankMain →
       (RankBase.AddRanker rb e).1 = some Err.DuplicateKey ∧
       (RankBase.AddRanker rb e).2.1 = rb) ∧
    (e.rankerId ∉ keys rb.rankMain →
       (RankBase.AddRanker rb e).1 = none ∧
       dictLookup (RankBase.AddRanker rb e).2.1.dict e.rankerId = some e.value ∧
       ((RankBase.AddRanker rb e).2.2).rankPtr = true) := by
  unfold RankBase.AddRanker SkipList.Add
  constructor
  · intro hm
    simp [hm]
  · intro hm
    simp [hm, dictSet, dictLookup]

/-- Claim C4 witness: the duplicate branch at the one-element facade and
the success branch at the fresh facade. -/
theorem addRanker_witness :
    ((RankBase.AddRanker rbOne { rankerId := 1, value := 9, updateTime := 30, rankPtr := false }).1 =
        some Err.DuplicateKey ∧
     (RankBase.AddRanker rbOne { rankerId := 1, value := 9, updateTime := 30, rankPtr := false }).2.1 =
        rbOne) ∧
    ((RankBase.AddRanker NewRank r1).1 = none ∧
     dictLookup (RankBase.AddRanker NewRank r1).2.1.dict r1.rankerId = some r1.value ∧
     ((RankBase.AddRanker NewRank r1).2.2).rankPtr = true) :=
  ⟨(addRanker_duplicate_and_success rbOne
      { rankerId := 1, value := 9, updateTime := 30, rankPtr := false }).1 (by decide),
   (addRanker_duplicate_and_success NewRank r1).2 (by decide)⟩

/-- Claim C5 counterexample: a ranker added to a fresh facade and then
removed keeps its back-reference set, and its self-rank query against the
facade it still points to fails with NotFound from the index rather than
with the detached-ranker error — refuting the claim that every removed
ranker fails with a DetachedRanker-style error. -/
theorem getRank_removed_ranker_not_detached :
    (RankBase.RemoveRanker rbOne addedRanker).1 = none ∧
    ((RankBase.RemoveRanker rbOne addedRanker).2.2).rankPtr = true ∧
    Ranker.GetRank (RankBase.RemoveRanker rbOne addedRanker).2.2
        (RankBase.RemoveRanker rbOne addedRanker).2.1 = Except.error Err.NotFound := by
  decide

/-- Claim C5 as amended: the entity-level self-rank query fails with the
detached-ranker error exactly when the back-reference is unset, and with
the back-reference set it delegates to the pointed-to facade's rank
lookup; removal, however, does not unset the back-reference, so a
removed ranker is not in the detached case and its query fails with
NotFound from the index instead. -/
theorem getRank_detached_iff_unset (e : Ranker) (rb : RankBase) :
    (Ranker.GetRank e rb = Except.error Err.DetachedRanker ↔ e.rankPtr = false) ∧
    (e.rankPtr = true → Ranker.GetRank e rb = RankBase.GetRank rb e.rankerId) := by
  cases hp : e.rankPtr with
  | false =>
    constructor
    · simp [Ranker.GetRank, hp]
    · intro hc
      simp at hc
  | true =>
    constructor
    · constructor
      · intro hq
        simp only [Ranker.GetRank, hp, if_true] at hq
        unfold RankBase.GetRank SkipList.GetRankByKey at hq
        cases hr : rankAux e.rankerId rb.rankMain with
        | some n => rw [hr] at hq; exact Except.noConfusion hq
        | none =>
          rw [hr] at hq
          have := Except.error.inj hq
          simp at this
      · intro hq
        simp at hq
    · intro _
      simp [Ranker.GetRank, hp]

/-- Claim C5 witness: the amended statement at a never-inserted ranker,
whose query is the detached-ranker error, with the delegation hypothesis
discharged at an attached ranker. -/
theorem getRank_detached_witness :
    (Ranker.GetRank r1 rbOne = Except.error Err.DetachedRanker ↔ r1.rankPtr = false) ∧
    Ranker.GetRank addedRanker rbTwo = RankBase.GetRank rbTwo addedRanker.rankerId :=
  ⟨(getRank_detached_iff_unset r1 rbOne).1,
   (getRank_detached_iff_unset addedRanker rbTwo).2 (by decide)⟩

/-- Claim C6 counterexample: removing the only ranker of a facade through
RemoveRanker succeeds, yet the ranker the caller retains still has its
back-reference set afterwards. -/
theorem removeRanker_keeps_backref :
    (RankBase.RemoveRanker rbOne addedRanker).1 = none ∧
    (RankBase.RemoveRanker rbOne addedRanker).2.2 = addedRanker ∧
    addedRanker.rankPtr = true := by
  decide

/-- Claim C6 as amended: removal does not clear the back-reference; a
RemoveRanker call hands the ranker argument back exactly as it was, its
back-reference included, whether the removal succeeded or failed. -/
theorem removeRanker_backref_unchanged (rb : RankBase) (e : Ranker) :
    (RankBase.RemoveRanker rb e).2.2 = e := by
  unfold RankBase.RemoveRanker
  cases SkipList.DeleteByKey rb.rankMain e.rankerId with
  | ok l => rfl
  | error er => rfl

/-- Claim C10: AddRanker sets the argument's back-reference before the
index insert, so also on the duplicate-key error path the caller's ranker
ends up with its back-reference set to the facade. -/
theorem addRanker_sets_backref_even_on_error (rb : RankBase) (e : Ranker)
    (h : e.rankerId ∈ keys rb.rankMain) :
    (RankBase.AddRanker rb e).1 = some Err.DuplicateKey ∧
    (RankBase.AddRanker rb e).2.2 = { e with rankPtr := true } := by
  unfold RankBase.AddRanker SkipList.Add
  simp [h]

/-- Claim C10 witness: adding a second ranker under the already-present
key 1 fails with DuplicateKey and still hands back the argument with its
back-reference set. -/
theorem addRanker_backref_witness :
    (RankBase.AddRanker rbOne { rankerId := 1, value := 9, updateTime := 30, rankPtr := false }).1 =
        some Err.DuplicateKey ∧
    (RankBase.AddRanker rbOne { rankerId := 1, value := 9, updateTime := 30, rankPtr := false }).2.2 =
        { rankerId := 1, value := 9, updateTime := 30, rankPtr := true } :=
  addRanker_sets_backref_even_on_error rbOne
    { rankerId := 1, value := 9, updateTime := 30, rankPtr := false } (by decide)

/-- Keys of an empty index. -/
theorem keys_nil : keys [] = [] := rfl

/-- Keys of a nonempty index. -/
theorem keys_cons (h : Ranker) (t : List Ranker) : keys (h :: t) = h.rankerId :: keys t := rfl

/-- Keys of a reversed index. -/
theorem keys_reverse (l : List Ranker) : keys l.reverse = (keys l).reverse := by
  simp [keys]

/-- Key membership after an insertion. -/
theorem mem_keys_insertElem {x : Ranker} {a : Nat} : ∀ {l : List Ranker},
    a ∈ keys (insertElem x l) ↔ a = x.rankerId ∨ a ∈ keys l := by
  intro l
  induction l with
  | nil => simp [insertElem, keys]
  | cons h t ih =>
    cases hc : h.Less x with
    | true =>
      simp only [insertElem, hc, if_true, keys_cons, List.mem_cons, ih]
      tauto
    | false =>
      simp only [insertElem, hc, Bool.false_eq_true, if_false, keys_cons, List.mem_cons]

/-- Key membership after a deletion, on an index with no duplicate
keys. -/
theorem mem_keys_deleteKey {k a : Nat} : ∀ {l : List Ranker}, (keys l).Nodup →
    (a ∈ keys (deleteKey k l) ↔ (a ∈ keys l ∧ a ≠ k)) := by
  intro l
  induction l with
  | nil => intro _; simp [deleteKey, keys_nil]
  | cons h t ih =>
    intro hnd
    rw [keys_cons, List.nodup_cons] at hnd
    obtain ⟨hh, ht⟩ := hnd
    by_cases hk : h.rankerId = k
    · rw [show deleteKey k (h :: t) = t from by simp [deleteKey, hk]]
      subst hk
      constructor
      · intro hat
        refine ⟨by rw [keys_cons]; exact List.mem_cons_of_mem _ hat, fun heq => ?_⟩
        exact hh (heq ▸ hat)
      · rintro ⟨hat, hne⟩
        rw [keys_cons] at hat
        rcases List.mem_cons.mp hat with rfl | h2
        · exact absurd rfl hne
        · exact h2
    · rw [show deleteKey k (h :: t) = h :: deleteKey k t from by simp [deleteKey, hk]]
      rw [keys_cons, keys_cons]
      simp only [List.mem_cons, ih ht]
      constructor
      · rintro (rfl | ⟨hat, hne⟩)
        · exact ⟨Or.inl rfl, hk⟩
        · exact ⟨Or.inr hat, hne⟩
      · rintro ⟨rfl | hat, hne⟩
        · exact Or.inl rfl
        · exact Or.inr ⟨hat, hne⟩

/-- Reading a key back right after storing it. -/
theorem dictLookup_set_self (d : List (Nat × Int)) (k : Nat) (v : Int) :
    dictLookup (dictSet d k v) k = some v := by
  simp [dictSet, dictLookup]

/-- Deleting one key leaves the binding of another key unchanged. -/
theorem dictLookup_del_other : ∀ (d : List (Nat × Int)) (k a : Nat), a ≠ k →
    dictLookup (dictDel d k) a = dictLookup d a := by
  intro d k a h
  induction d with
  | nil => rfl
  | cons p t ih =>
    by_cases hpk : p.1 = k
    · rw [show dictDel (p :: t) k = dictDel t k from by simp [dictDel, hpk]]
      rw [ih]
      have hpa : p.1 ≠ a := fun hh => h (by rw [← hh, hpk])
      simp [dictLookup, hpa]
    · rw [show dictDel (p :: t) k = p :: dictDel t k from by simp [dictDel, hpk]]
      by_cases hpa : p.1 = a
      · simp [dictLookup, hpa]
      · simp [dictLookup, hpa, ih]

/-- Storing one key leaves the binding of another key unchanged. -/
theorem dictLookup_set_other (d : List (Nat × Int)) (k : Nat) (v : Int) (a : Nat)
    (h : a ≠ k) : dictLookup (dictSet d k v) a = dictLookup d a := by
  simp only [dictSet, dictLookup]
  rw [if_neg (fun hh => h hh.symm)]
  exact dictLookup_del_other d k a h

/-- The rank search misses exactly the absent keys. -/
theorem rankAux_none_iff {k : Nat} : ∀ {l : List Ranker},
    rankAux k l = none ↔ k ∉ keys l := by
  intro l
  induction l with
  | nil => simp [rankAux, keys]
  | cons h t ih =>
    by_cases hk : h.rankerId = k
    · simp [rankAux, hk, keys_cons]
    · simp [rankAux, hk, keys_cons, ih, Option.map_eq_none', Ne.symm hk]

/-- A found rank lies between 1 and the index length. -/
theorem rankAux_bounds {k : Nat} : ∀ {l : List Ranker} {n : Nat},
    rankAux k l = some n → 1 ≤ n ∧ n ≤ l.length := by
  intro l
  induction l with
  | nil => intro n h; simp [rankAux] at h
  | cons hd t ih =>
    intro n h
    by_cases hk : hd.rankerId = k
    · simp [rankAux, hk] at h
      simp [List.length_cons]
      omega
    · simp only [rankAux, hk, if_false, Option.map_eq_some'] at h
      obtain ⟨m, hm, hmn⟩ := h
      have := ih hm
      simp [List.length_cons]
      omega

/-- A key found in the first part of an appended index keeps its rank. -/
theorem rankAux_append_mem {k : Nat} : ∀ (l1 l2 : List Ranker) (m : Nat),
    rankAux k l1 = some m → rankAux k (l1 ++ l2) = some m := by
  intro l1
  induction l1 with
  | nil => intro l2 m h; simp [rankAux] at h
  | cons hd t ih =>
    intro l2 m h
    rw [List.cons_append]
    by_cases hk : hd.rankerId = k
    · rw [show rankAux k (hd :: t) = some 1 from by simp [rankAux, hk]] at h
      rw [show rankAux k (hd :: (t ++ l2)) = some 1 from by simp [rankAux, hk]]
      exact h
    · rw [show rankAux k (hd :: t) = (rankAux k t).map (fun n => n + 1) from by
        simp [rankAux, hk]] at h
      rw [show rankAux k (hd :: (t ++ l2)) = (rankAux k (t ++ l2)).map (fun n => n + 1) from by
        simp [rankAux, hk]]
      rcases hx : rankAux k t with _ | m1
      · rw [hx] at h; simp at h
      · rw [hx] at h
        rw [ih l2 m1 hx]
        exact h

/-- A key absent from the first part of an appended index gets its rank
from the second part, shifted by the first part's length. -/
theorem rankAux_append_not_mem {k : Nat} : ∀ (l1 l2 : List Ranker), k ∉ keys l1 →
    rankAux k (l1 ++ l2) = (rankAux k l2).map (fun n => n + l1.length) := by
  intro l1
  induction l1 with
  | nil =>
    intro l2 _
    rw [List.nil_append]
    cases hx : rankAux k l2 <;> simp [hx]
  | cons hd t ih =>
    intro l2 hm
    rw [keys_cons, List.mem_cons] at hm
    push_neg at hm
    obtain ⟨h1, h2⟩ := hm
    rw [List.cons_append]
    rw [show rankAux k (hd :: (t ++ l2)) = (rankAux k (t ++ l2)).map (fun n => n + 1) from by
      simp [rankAux, Ne.symm h1]]
    rw [ih l2 h2]
    cases hx : rankAux k l2 <;> simp [hx, List.length_cons, Nat.add_assoc]

/-- Rank within the reversed index: on an index with no duplicate keys, a
key of rank n among N elements has rank N + 1 - n from the other end. -/
theorem rankAux_reverse {k : Nat} : ∀ {l : List Ranker} {n : Nat}, (keys l).Nodup →
    rankAux k l = some n → rankAux k l.reverse = some (l.length + 1 - n) := by
  intro l
  induction l with
  | nil => intro n _ h; simp [rankAux] at h
  | cons hd t ih =>
    intro n hnd h
    rw [keys_cons, List.nodup_cons] at hnd
    obtain ⟨hh, ht⟩ := hnd
    rw [List.reverse_cons]
    by_cases hk : hd.rankerId = k
    · simp [rankAux, hk] at h
      have hkt : k ∉ keys t.reverse := by
        rw [keys_reverse, List.mem_reverse]
        intro hc
        exact hh (by rw [hk]; exact hc)
      rw [rankAux_append_not_mem t.reverse [hd] hkt]
      simp [rankAux, hk, List.length_reverse, List.length_cons]
      omega
    · have h1 : ∃ m, rankAux k t = some m ∧ m + 1 = n := by
        simpa [rankAux, hk, Option.map_eq_some'] using h
      obtain ⟨m, hm, hmn⟩ := h1
      have hrec := ih ht hm
      have hb := rankAux_bounds hm
      rw [rankAux_append_mem t.reverse [hd] (t.length + 1 - m) hrec]
      simp [List.length_cons]
      omega

/-- Concrete shape of the one-element facade fixture. -/
theorem rbOne_eq :
    rbOne = { rankMain := [{ rankerId := 1, value := 5, updateTime := 10, rankPtr := true }],
              dict := [(1, 5)] } := by
  decide

/-- The one-element facade fixture has its index and auxiliary map in
agreement. -/
theorem consistent_rbOne : Consistent rbOne := by
  rw [rbOne_eq]
  intro a
  by_cases h1 : a = 1
  · subst h1
    decide
  · simp [keys, dictLookup, h1, Ne.symm h1]

/-- Claim C1 counterexample: on the facade holding exactly key 1 with
value 5, an update of key 1 whose reinsert step is simulated to fail (as
the spec's atomicity property demands to tolerate) returns the injected
error and leaves key 1 present in the auxiliary map, with its old value,
while absent from the index — the partial state the claim rules out. -/
theorem updateRankerData_injected_breaks_atomicity :
    (RankBase.UpdateRankerData rbOne
        { rankerId := 1, value := 7, updateTime := 20, rankPtr := false } true).1 =
      some Err.Injected ∧
    (1 : Nat) ∉ keys (RankBase.UpdateRankerData rbOne
        { rankerId := 1, value := 7, updateTime := 20, rankPtr := false } true).2.1.rankMain ∧
    dictLookup (RankBase.UpdateRankerData rbOne
        { rankerId := 1, value := 7, updateTime := 20, rankPtr := false } true).2.1.dict 1 =
      some 5 := by
  decide

/-- Claim C1 as amended: on a facade whose index and map agree and whose
index has no duplicate keys, an update of an absent key fails with
NotFound and leaves the facade exactly as it was, and a fault-free update
of a present key succeeds, keeps the index and map in agreement and
stores the new value under the key in both; atomicity under a simulated
failure of the reinsert step, however, does not hold, since such a
failure leaves the key in the auxiliary map but not in the index. -/
theorem updateRankerData_notfound_and_faultfree_atomic (rb : RankBase) (e : Ranker)
    (hc : Consistent rb) (hn : (keys rb.rankMain).Nodup) :
    (e.rankerId ∉ keys rb.rankMain →
       (RankBase.UpdateRankerData rb e false).1 = some Err.NotFound ∧
       (RankBase.UpdateRankerData rb e false).2.1 = rb) ∧
    (e.rankerId ∈ keys rb.rankMain →
       (RankBase.UpdateRankerData rb e false).1 = none ∧
       Consistent (RankBase.UpdateRankerData rb e false).2.1 ∧
       dictLookup (RankBase.UpdateRankerData rb e false).2.1.dict e.rankerId = some e.value ∧
       e.rankerId ∈ keys (RankBase.UpdateRankerData rb e false).2.1.rankMain) := by
  constructor
  · intro hm
    simp [RankBase.UpdateRankerData, SkipList.DeleteByKey, hm]
  · intro hm
    have hdel : e.rankerId ∉ keys (deleteKey e.rankerId rb.rankMain) := by
      rw [mem_keys_deleteKey hn]
      rintro ⟨_, hne⟩
      exact hne rfl
    have hstate : (RankBase.UpdateRankerData rb e false).2.1 =
        { rankMain := insertElem { e with rankPtr := true } (deleteKey e.rankerId rb.rankMain),
          dict := dictSet rb.dict e.rankerId e.value } := by
      simp [RankBase.UpdateRankerData, SkipList.DeleteByKey, SkipList.Add, hm, hdel]
    refine ⟨?_, ?_, ?_, ?_⟩
    · simp [RankBase.UpdateRankerData, SkipList.DeleteByKey, SkipList.Add, hm, hdel]
    · rw [hstate]
      intro a
      by_cases hak : a = e.rankerId
      · subst hak
        simp [mem_keys_insertElem, dictLookup_set_self]
      · have hso := dictLookup_set_other rb.dict e.rankerId e.value a hak
        simp [mem_keys_insertElem, mem_keys_deleteKey hn, hak, hso, hc a]
    · rw [hstate]
      exact dictLookup_set_self rb.dict e.rankerId e.value
    · rw [hstate]
      simp [mem_keys_insertElem]

/-- Claim C1 witness: the fault-free present-key branch of the amended
statement at the one-element facade, updating key 1 to value 7. -/
theorem updateRankerData_faultfree_witness :
    (RankBase.UpdateRankerData rbOne
        { rankerId := 1, value := 7, updateTime := 20, rankPtr := false } false).1 = none ∧
    Consistent (RankBase.UpdateRankerData rbOne
        { rankerId := 1, value := 7, updateTime := 20, rankPtr := false } false).2.1 ∧
    dictLookup (RankBase.UpdateRankerData rbOne
        { rankerId := 1, value := 7, updateTime := 20, rankPtr := false } false).2.1.dict 1 =
      some 7 ∧
    (1 : Nat) ∈ keys (RankBase.UpdateRankerData rbOne
        { rankerId := 1, value := 7, updateTime := 20, rankPtr := false } false).2.1.rankMain := by
  exact (updateRankerData_notfound_and_faultfree_atomic rbOne
    { rankerId := 1, value := 7, updateTime := 20, rankPtr := false }
    consistent_rbOne (by decide)).2 (by decide)

/-- Claim C8: with a start rank of at least 1, the facade's range query
clamps an end beyond the count and returns exactly the elements from the
start rank to the count, returns the empty sequence rather than an error
when the start rank exceeds the count, and fails with OutOfRange exactly
when the start rank exceeds the end rank. -/
theorem range_clamps_and_bounds (rb : RankBase) (s e : Int) (hs : 1 ≤ s) :
    (s ≤ e → RankBase.count rb < e →
        RankBase.Range rb s e = Except.ok (rb.rankMain.drop (s - 1).toNat)) ∧
    (s ≤ e → RankBase.count rb < s → RankBase.Range rb s e = Except.ok []) ∧
    (RankBase.Range rb s e = Except.error Err.OutOfRange ↔ e < s) := by
  unfold RankBase.Range SkipList.GetRange RankBase.count SkipList.GetElementsCount
  refine ⟨?_, ?_, ?_⟩
  · intro hse hce
    rw [if_neg]
    · rw [min_eq_right (le_of_lt hce), Int.toNat_natCast, List.take_length]
    · rintro (h | h) <;> omega
  · intro hse hcs
    rw [if_neg]
    · have h1 : (rb.rankMain.take (min e (rb.rankMain.length : Int)).toNat).length ≤
          rb.rankMain.length := by
        rw [List.length_take]
        exact min_le_right _ _
      have h2 : rb.rankMain.length ≤ (s - 1).toNat := by omega
      rw [List.drop_eq_nil_of_le (le_trans h1 h2)]
    · rintro (h | h) <;> omega
  · constructor
    · intro hq
      by_contra hlt
      push_neg at hlt
      rw [if_neg] at hq
      · exact Except.noConfusion hq
      · rintro (h | h) <;> omega
    · intro hq
      rw [if_pos (Or.inr hq)]

/-- Claim C8 witness: the three branches at the one-element facade — a
full range with the end clamped from 5 to the count, an empty result for
a start beyond the count, and the out-of-range error exactly when the
start exceeds the end. -/
theorem range_clamps_witness :
    RankBase.Range rbOne 1 5 = Except.ok (rbOne.rankMain.drop ((1 : Int) - 1).toNat) ∧
    RankBase.Range rbOne 2 5 = Except.ok [] ∧
    (RankBase.Range rbOne 3 2 = Except.error Err.OutOfRange ↔ (2 : Int) < 3) :=
  ⟨(range_clamps_and_bounds rbOne 1 5 (by decide)).1 (by decide) (by decide),
   (range_clamps_and_bounds rbOne 2 5 (by decide)).2.1 (by decide) (by decide),
   (range_clamps_and_bounds rbOne 3 2 (by decide)).2.2⟩

/-- Claim C9: on a facade whose index has no duplicate keys, whenever the
ascending rank query answers r for a key, the reverse rank query answers
count minus r plus one for that key. -/
theorem reverse_rank_law (rb : RankBase) (k : Nat) (r : Int)
    (hn : (keys rb.rankMain).Nodup) (hr : RankBase.GetRank rb k = Except.ok r) :
    RankBase.GetReverseRank rb k = Except.ok (RankBase.count rb - r + 1) := by
  unfold RankBase.GetRank SkipList.GetRankByKey at hr
  cases hx : rankAux k rb.rankMain with
  | none =>
    rw [hx] at hr
    exact Except.noConfusion hr
  | some n =>
    rw [hx] at hr
    have hrn : (n : Int) = r := Except.ok.inj hr
    have hb := rankAux_bounds hx
    have hrev := rankAux_reverse hn hx
    unfold RankBase.GetReverseRank SkipList.GetReverseRankByKey SkipList.GetRankByKey
      RankBase.count SkipList.GetElementsCount
    rw [hrev]
    show Except.ok (((rb.rankMain.length + 1 - n : Nat) : Int)) =
      Except.ok ((rb.rankMain.length : Int) - r + 1)
    simp only [Except.ok.injEq]
    omega

/-- Claim C9 witness: in the two-element facade, key 1 has rank 2 and
reverse rank count minus 2 plus 1. -/
theorem reverse_rank_law_witness :
    RankBase.GetReverseRank rbTwo 1 = Except.ok (RankBase.count rbTwo - 2 + 1) :=
  reverse_rank_law rbTwo 1 2 (by decide) (by decide)
